import Mathlib

/-!
# Verification of the LZW encoder (`lzwencode.c`)

A shallow embedding of the encoding core of `LZWEncodeFile` and its helper
functions (`MakeKey`, `FindDictionaryEntry`, the dictionary node creation and
attachment, and the code-width escalation loop), together with theorems about
the embedded definitions.

Machine integers are modelled as `Nat`; the C `unsigned int` arithmetic in
`MakeKey` is reduced modulo `2 ^ 32` exactly where the C computation lives in a
32-bit `unsigned int`.  File I/O is modelled by lists: the input file is a
`List Nat` of byte values and each `PutCodeWord` call becomes an `Event` in an
output trace, which also records dictionary-entry creation (`MakeNode` plus
child attachment) and the `Dictionary Full` diagnostic print.
-/

/-- `MIN_CODE_LEN` from the source: min number of bits in a code word. -/
def MIN_CODE_LEN : Nat := 9

/-- `MAX_CODE_LEN` from the source: max number of bits in a code word. -/
def MAX_CODE_LEN : Nat := 20

/-- `FIRST_CODE = (1 << CHAR_BIT)` from the source: value of the 1st string code. -/
def FIRST_CODE : Nat := 1 <<< 8

/-- `MAX_CODES = (1 << MAX_CODE_LEN)` from the source. -/
def MAX_CODES : Nat := 1 <<< MAX_CODE_LEN

/-- `CURRENT_MAX_CODES(BITS) = (unsigned int)(1 << (BITS))` from the source. -/
def CURRENT_MAX_CODES (bits : Nat) : Nat := 1 <<< bits

/-- `MakeKey` from the source:
key = `{ms nibble of suffixChar} ++ prefixCode ++ {ls nibble of suffixChar}`,
computed with 32-bit `unsigned int` shifts and ors. -/
def MakeKey (prefixCode suffixChar : Nat) : Nat :=
  (((suffixChar &&& 0xF0) <<< MAX_CODE_LEN) ||| (prefixCode <<< 4) |||
    (suffixChar &&& 0x0F)) % 2 ^ 32

/-- One dictionary entry: the data fields of `dict_node_t`
(`codeWord`, `suffixChar`, `prefixCode`); the child pointers become the
tree structure of `DictTree`. -/
structure Entry where
  codeWord : Nat
  prefixCode : Nat
  suffixChar : Nat
deriving DecidableEq, Repr

/-- The dictionary tree of `dict_node_t` nodes: `leaf` is the `NULL` pointer. -/
inductive DictTree where
  | leaf : DictTree
  | node (e : Entry) (left right : DictTree) : DictTree
deriving DecidableEq, Repr

/-- The key of an entry, as computed by the source at every comparison. -/
def keyOf (e : Entry) : Nat := MakeKey e.prefixCode e.suffixChar

/-- `FindDictionaryEntry` from the source: returns the node whose string
matches `(prefixCode, c)` if present, otherwise the node under which such a
string would be attached; `none` (C: `NULL`) for an empty tree. -/
def FindDictionaryEntry : DictTree → Nat → Nat → Option Entry
  | .leaf, _, _ => none
  | .node e l r, prefixCode, c =>
    if keyOf e = MakeKey prefixCode c then some e
    else if MakeKey prefixCode c < keyOf e then
      match l with
      | .leaf => some e
      | .node e2 l2 r2 => FindDictionaryEntry (.node e2 l2 r2) prefixCode c
    else
      match r with
      | .leaf => some e
      | .node e2 l2 r2 => FindDictionaryEntry (.node e2 l2 r2) prefixCode c

/-- Dictionary insertion as performed by the driver: `MakeNode` followed by
attaching the node as the `left` or `right` child of the node that
`FindDictionaryEntry` returned, chosen by comparing `MakeKey` values
(source lines 209-220).  The recursion repeats exactly the comparisons of the
`FindDictionaryEntry` walk (the driver only inserts strings that are not in
the tree, so the equal-key stop of the search never fires on that walk), and
attaches a fresh two-leaf node at the empty child slot the search ended at. -/
def insertEntry : DictTree → Entry → DictTree
  | .leaf, x => .node x .leaf .leaf
  | .node e l r, x =>
    if keyOf x < keyOf e then .node e (insertEntry l x) r
    else .node e l (insertEntry r x)

/-- In-order list of the entries held in a dictionary tree. -/
def entriesOf : DictTree → List Entry
  | .leaf => []
  | .node e l r => entriesOf l ++ e :: entriesOf r

/-- Number of entries held in a dictionary tree. -/
def treeSize (t : DictTree) : Nat := (entriesOf t).length

/-- One observable action of the encoder:
  * `emitCode v w` — `PutCodeWord` of the value `v` at width `w` for a regular
    (non-escape) code word (source lines 184, 238, 246);
  * `emitEsc v w` — `PutCodeWord` of the reserved all-ones escape code word
    inside the width-escalation loop (source line 232);
  * `insert cw pc sc` — creation and attachment of the dictionary entry
    `cw = (pc, sc)` (source lines 180, 209-220);
  * `diag` — the non-fatal `Dictionary Full` diagnostic (source line 224). -/
inductive Event where
  | emitCode (value width : Nat) : Event
  | emitEsc (value width : Nat) : Event
  | insert (codeWord prefixCode suffixChar : Nat) : Event
  | diag : Event
deriving DecidableEq, Repr

/-- The mutable locals of `LZWEncodeFile` that survive a loop iteration. -/
structure EncState where
  dict : DictTree
  code : Nat
  currentCodeLen : Nat
  nextCode : Nat
deriving DecidableEq, Repr

/-- The body of the code-width escalation loop, with an explicit bound on the
remaining iterations so that the recursion is structural.  The guard
`len < MAX_CODE_LEN` keeps `MAX_CODE_LEN - len` positive on every iteration
the C loop performs, so running this with `fuel = MAX_CODE_LEN - len` is the
loop itself (see `escalate` and the `escalateGo_spec` lemma). -/
def escalateGo (code : Nat) : Nat → Nat → Nat × List Event
  | len, 0 => (len, [])
  | len, fuel + 1 =>
    if CURRENT_MAX_CODES len - 1 ≤ code ∧ len < MAX_CODE_LEN then
      let r := escalateGo code (len + 1) fuel
      (r.1, Event.emitEsc (CURRENT_MAX_CODES len - 1) len :: r.2)
    else
      (len, [])

/-- The code-width escalation loop (source lines 228-235):
while `code >= CURRENT_MAX_CODES(currentCodeLen) - 1` and
`currentCodeLen < MAX_CODE_LEN`, emit the all-ones escape code word at the
current width and increment the width.  Returns the final width and the
emitted escape events. -/
def escalate (code len : Nat) : Nat × List Event :=
  escalateGo code len (MAX_CODE_LEN - len)

/-- One iteration of the main encoding loop (source lines 191-243) on input
byte `c`.  The `none` result of the dictionary search can only arise from an
empty tree, which the driver never passes to the loop (see the C9 theorem);
that branch leaves the state unchanged and emits nothing. -/
def encodeStep (st : EncState) (c : Nat) : EncState × List Event :=
  match FindDictionaryEntry st.dict st.code c with
  | none => (st, [])
  | some node =>
    if node.prefixCode = st.code ∧ node.suffixChar = c then
      ({ st with code := node.codeWord }, [])
    else
      let ins :=
        if st.nextCode < MAX_CODES then
          (insertEntry st.dict ⟨st.nextCode, st.code, c⟩, st.nextCode + 1,
            [Event.insert st.nextCode st.code c])
        else
          (st.dict, st.nextCode, [Event.diag])
      let esc := escalate st.code st.currentCodeLen
      ({ dict := ins.1, code := c, currentCodeLen := esc.1, nextCode := ins.2.1 },
        ins.2.2 ++ esc.2 ++ [Event.emitCode st.code esc.1])

/-- The main encoding loop (source lines 191-243) over the remaining input. -/
def runLoop (st : EncState) : List Nat → EncState × List Event
  | [] => (st, [])
  | c :: cs =>
    let s1 := encodeStep st c
    let s2 := runLoop s1.1 cs
    (s2.1, s1.2 ++ s2.2)

/-- The state after the Seed step (source lines 176-188) for first input byte
`c0` and second input byte `c1`: the root entry `FIRST_CODE = (c0, c1)` has
been created, `code` holds the second byte, and the width is 9 bits. -/
def encInitState (c0 c1 : Nat) : EncState :=
  { dict := .node ⟨FIRST_CODE, c0, c1⟩ .leaf .leaf
    code := c1
    currentCodeLen := 9
    nextCode := FIRST_CODE + 1 }

/-- The encoding core of `LZWEncodeFile` (source lines 155-257), with the
input file as a list of byte values.  Returns `none` (C: `return FALSE`,
before any output) for an empty input, otherwise the final state paired with
the trace of events in emission order: the Seed insertion and emission, the
main-loop events, and the single trailing emission of the final `code` at the
final width (source line 246). -/
def LZWEncode : List Nat → Option (EncState × List Event)
  | [] => none
  | [c0] =>
    some ({ dict := .leaf, code := c0, currentCodeLen := 9, nextCode := FIRST_CODE },
      [Event.emitCode c0 9])
  | c0 :: c1 :: rest =>
    let st0 := encInitState c0 c1
    let s := runLoop st0 rest
    some (s.1, Event.insert FIRST_CODE c0 c1 :: Event.emitCode c0 9 ::
      (s.2 ++ [Event.emitCode s.1.code s.1.currentCodeLen]))

/-- The event trace of an encode run (empty for the failing empty input). -/
def eventsOf (input : List Nat) : List Event :=
  ((LZWEncode input).map Prod.snd).getD []

/-- The code words of the dictionary-entry creations in a trace, in order. -/
def insertCodes (evs : List Event) : List Nat :=
  evs.filterMap fun e =>
    match e with
    | .insert cw _ _ => some cw
    | _ => none

/-- The `(prefixCode, suffixChar)` pairs of the dictionary-entry creations in
a trace, in order. -/
def insertPairs (evs : List Event) : List (Nat × Nat) :=
  evs.filterMap fun e =>
    match e with
    | .insert _ pc sc => some (pc, sc)
    | _ => none

/-- The dictionary codes (values `≥ 256`) among the regular (non-escape) code
words of a trace, in emission order. -/
def emittedDictCodes (evs : List Event) : List Nat :=
  evs.filterMap fun e =>
    match e with
    | .emitCode v _ => if 256 ≤ v then some v else none
    | _ => none

/-- The escape emissions mandated for a width growth from `w` to `w'`: one
all-ones escape code word per intermediate width. -/
def escapeEvents (w w' : Nat) : List Event :=
  (List.range (w' - w)).map fun i => Event.emitEsc (2 ^ (w + i) - 1) (w + i)

/-- `[1, 0, 2, 0, ..., k, 0]`: a byte sequence whose consecutive pairs are all
distinct, used to fill the dictionary without ever matching. -/
def pairSeq : Nat → List Nat
  | 0 => []
  | k + 1 => pairSeq k ++ [k + 1, 0]

/-- A 260-byte input on which the Running loop assigns the dictionary codes
256..513 while the width stays at 9 bits (every emitted value is a literal
byte), the pair `(128, 0)` receives code 511, and the input ends right after
a match of that pair, so the trailing emission of the Final state writes the
value `511 = 2 ^ 9 - 1` at width 9 with no escalation check. -/
def badC1Input : List Nat := 0 :: (pairSeq 128 ++ [129, 128, 0])

/-- The 7-byte input `A B A B A B C`: the pair `(65, 66)` is matched twice and
each match is followed by a novel pair, so the dictionary code 256 is emitted
twice. -/
def c4Input : List Nat := [65, 66, 65, 66, 65, 66, 67]

/-- All keys in `t` are strictly below `k`. -/
def keysBelow (t : DictTree) (k : Nat) : Prop :=
  ∀ e ∈ entriesOf t, keyOf e < k

/-- All keys in `t` are strictly above `k`. -/
def keysAbove (t : DictTree) (k : Nat) : Prop :=
  ∀ e ∈ entriesOf t, k < keyOf e

/-- The binary-search-tree ordering invariant of the dictionary: at every
node, the left subtree holds strictly smaller keys and the right subtree
strictly larger ones. -/
def SearchTree : DictTree → Prop
  | .leaf => True
  | .node e l r =>
    keysBelow l (keyOf e) ∧ keysAbove r (keyOf e) ∧ SearchTree l ∧ SearchTree r

/-- The state invariant of the encoding loop: the dictionary is a search
tree; every entry's code word lies in `[FIRST_CODE, nextCode)`, exceeds the
entry's prefix code, and has a byte-valued suffix; the code words
`FIRST_CODE..nextCode-1` are all present; the active `code` is below
`nextCode`; and `nextCode` stays in `[FIRST_CODE, MAX_CODES]` and counts the
entries. -/
structure EncInv (st : EncState) : Prop where
  search : SearchTree st.dict
  entryBound : ∀ e ∈ entriesOf st.dict,
    FIRST_CODE ≤ e.codeWord ∧ e.codeWord < st.nextCode ∧
      e.prefixCode < e.codeWord ∧ e.suffixChar < 256
  contig : ∀ k, FIRST_CODE ≤ k → k < st.nextCode →
    ∃ e ∈ entriesOf st.dict, e.codeWord = k
  codeLt : st.code < st.nextCode
  nextLe : st.nextCode ≤ MAX_CODES
  nextGe : FIRST_CODE ≤ st.nextCode
  sizeEq : treeSize st.dict + FIRST_CODE = st.nextCode

/-- The trace invariant of the encoding loop: `past` is the event trace
produced so far.  Every dictionary entry was logged as an `insert` event;
every logged pair is (still) in the dictionary; no pair was logged twice;
every logged regular emission of a dictionary code was preceded by the
`insert` event that assigned that code; and every logged `insert` has a
prefix code that is either a literal byte or a previously inserted code. -/
structure TraceInv (st : EncState) (past : List Event) : Prop where
  inv : EncInv st
  dictLogged : ∀ e ∈ entriesOf st.dict,
    Event.insert e.codeWord e.prefixCode e.suffixChar ∈ past
  pairsInDict : ∀ pq ∈ insertPairs past,
    ∃ e ∈ entriesOf st.dict, (e.prefixCode, e.suffixChar) = pq
  pairsNodup : (insertPairs past).Nodup
  emitsGood : ∀ l1 v w l2, past = l1 ++ Event.emitCode v w :: l2 →
    256 ≤ v → ∃ p s, Event.insert v p s ∈ l1
  insGood : ∀ l1 cw pc sc l2, past = l1 ++ Event.insert cw pc sc :: l2 →
    pc < cw ∧ (pc < 256 ∨ ∃ p' s', Event.insert pc p' s' ∈ l1)

/-- The byte string denoted by a code with respect to a list of dictionary
entries, with an explicit recursion bound: a code below `FIRST_CODE` denotes
the single literal byte, and an entry's code denotes the string of its prefix
code extended by its suffix byte.  `none` means the bound was exhausted or a
code was unresolvable; the C10 theorem shows this never happens for the
dictionaries the encoder builds. -/
def denoteCode (es : List Entry) : Nat → Nat → Option (List Nat)
  | 0, _ => none
  | fuel + 1, code =>
    if code < FIRST_CODE then some [code]
    else
      match es.find? (fun e => e.codeWord == code) with
      | none => none
      | some e => (denoteCode es fuel e.prefixCode).map (fun s => s ++ [e.suffixChar])

/-- C6: For an empty (zero-byte) input, the encode operation returns a
failure indicator (C: `FALSE`, modelled as `none`) and emits zero code
words to the output. -/
theorem C6_empty_input : LZWEncode [] = none ∧ eventsOf [] = [] := by
  exact ⟨rfl, rfl⟩

/-- C7: For the input `65 65 65 65` (`A A A A`), the encode operation emits
exactly three 9-bit code words, in order the values `65`, `256`, `65`, and
the final dictionary holds exactly the two entries
`256 = (prefix 65, suffix 65)` and `257 = (prefix 256, suffix 65)`; the
complete event trace below contains no emission of code `257`. -/
theorem C7_four_bytes : LZWEncode [65, 65, 65, 65] = some
    ({ dict := .node ⟨256, 65, 65⟩ .leaf (.node ⟨257, 256, 65⟩ .leaf .leaf),
       code := 65, currentCodeLen := 9, nextCode := 258 },
     [.insert 256 65 65, .emitCode 65 9, .insert 257 256 65, .emitCode 256 9,
      .emitCode 65 9]) := by
  rfl

set_option maxRecDepth 100000 in
/-- C1 counterexample: the 260-byte input `badC1Input` consists of byte
values only, yet the trailing (Final state) emission is the regular
(non-escape) code word `511` at width 9, and `2 ^ 9 - 1 ≤ 511`: the
escalation check does not run before the trailing emission (source line 246),
so the claim that every non-escape code word emitted at width `w` — the
trailing emission included — has value strictly less than `2 ^ w - 1` is
false on this input. -/
theorem C1_counterexample :
    (eventsOf badC1Input).getLast? = some (Event.emitCode 511 9) ∧
      2 ^ 9 - 1 ≤ 511 ∧ (badC1Input.all fun b => b < 256) = true := by
  refine ⟨by decide!, by decide, by decide!⟩

/-- C4 counterexample: on the 7-byte input `65 66 65 66 65 66 67`
(`A B A B A B C`) the dictionary codes appearing in the emitted output are
`[256, 256]`: the code 256 is emitted twice, which refutes "strictly
increasing with no reuse" (a strictly increasing list never repeats a
value), and 257 — although assigned — never appears (a gap). -/
theorem C4_counterexample :
    emittedDictCodes (eventsOf c4Input) = [256, 256] ∧
      insertCodes (eventsOf c4Input) = [256, 257, 258, 259] := by
  refine ⟨by decide, by decide⟩

theorem CURRENT_MAX_CODES_eq (b : Nat) : CURRENT_MAX_CODES b = 2 ^ b := by
  simp [CURRENT_MAX_CODES, Nat.shiftLeft_eq]

theorem escapeEvents_self (w : Nat) : escapeEvents w w = [] := by
  simp [escapeEvents]

theorem escapeEvents_cons {w w' : Nat} (h : w < w') :
    escapeEvents w w' = Event.emitEsc (2 ^ w - 1) w :: escapeEvents (w + 1) w' := by
  have hk : w' - w = (w' - (w + 1)) + 1 := by omega
  rw [escapeEvents, hk, List.range_succ_eq_map, List.map_cons, List.map_map,
    escapeEvents]
  refine congrArg₂ _ (by simp) (List.map_congr_left ?_)
  intro i _
  have h1 : w + (i + 1) = w + 1 + i := by omega
  simp [Function.comp, h1]

theorem escalateGo_spec (code fuel : Nat) :
    ∀ len, MAX_CODE_LEN ≤ len + fuel → len ≤ MAX_CODE_LEN →
      len ≤ (escalateGo code len fuel).1 ∧
      (escalateGo code len fuel).1 ≤ MAX_CODE_LEN ∧
      (escalateGo code len fuel).2 = escapeEvents len (escalateGo code len fuel).1 ∧
      (code < 2 ^ (escalateGo code len fuel).1 - 1 ∨
        (escalateGo code len fuel).1 = MAX_CODE_LEN) := by
  induction fuel with
  | zero =>
    intro len h1 h2
    have hlen : len = MAX_CODE_LEN := by omega
    simp [escalateGo, escapeEvents_self, hlen]
  | succ fuel ih =>
    intro len h1 h2
    rw [escalateGo]
    by_cases hc : CURRENT_MAX_CODES len - 1 ≤ code ∧ len < MAX_CODE_LEN
    · simp only [if_pos hc]
      obtain ⟨h3, h4, h5, h6⟩ := ih (len + 1) (by omega) (by omega)
      refine ⟨by omega, h4, ?_, h6⟩
      rw [escapeEvents_cons (show len < (escalateGo code (len + 1) fuel).1 by omega),
        h5, CURRENT_MAX_CODES_eq]
    · simp only [if_neg hc]
      refine ⟨Nat.le_refl len, h2, (escapeEvents_self len).symm, ?_⟩
      rw [CURRENT_MAX_CODES_eq] at hc
      by_cases hl : len < MAX_CODE_LEN
      · left
        rcases Decidable.not_and_iff_or_not.mp hc with h | h
        · omega
        · exact absurd hl h
      · right
        omega

theorem escalate_spec (code len : Nat) (h : len ≤ MAX_CODE_LEN) :
    len ≤ (escalate code len).1 ∧ (escalate code len).1 ≤ MAX_CODE_LEN ∧
    (escalate code len).2 = escapeEvents len (escalate code len).1 ∧
    (code < 2 ^ (escalate code len).1 - 1 ∨ (escalate code len).1 = MAX_CODE_LEN) :=
  escalateGo_spec code (MAX_CODE_LEN - len) len (by omega) h

theorem encodeStep_none {st : EncState} {c : Nat}
    (hf : FindDictionaryEntry st.dict st.code c = none) :
    encodeStep st c = (st, []) := by
  rw [encodeStep, hf]

theorem encodeStep_match {st : EncState} {c : Nat} {node : Entry}
    (hf : FindDictionaryEntry st.dict st.code c = some node)
    (hm : node.prefixCode = st.code ∧ node.suffixChar = c) :
    encodeStep st c = ({ st with code := node.codeWord }, []) := by
  rw [encodeStep, hf]
  simp [hm]

theorem encodeStep_novel_room {st : EncState} {c : Nat} {node : Entry}
    (hf : FindDictionaryEntry st.dict st.code c = some node)
    (hm : ¬(node.prefixCode = st.code ∧ node.suffixChar = c))
    (hr : st.nextCode < MAX_CODES) :
    encodeStep st c =
      ({ dict := insertEntry st.dict ⟨st.nextCode, st.code, c⟩, code := c,
         currentCodeLen := (escalate st.code st.currentCodeLen).1,
         nextCode := st.nextCode + 1 },
       Event.insert st.nextCode st.code c ::
         ((escalate st.code st.currentCodeLen).2 ++
           [Event.emitCode st.code (escalate st.code st.currentCodeLen).1])) := by
  rw [encodeStep, hf]
  simp [hm, hr]

theorem encodeStep_novel_full {st : EncState} {c : Nat} {node : Entry}
    (hf : FindDictionaryEntry st.dict st.code c = some node)
    (hm : ¬(node.prefixCode = st.code ∧ node.suffixChar = c))
    (hr : ¬ st.nextCode < MAX_CODES) :
    encodeStep st c =
      ({ dict := st.dict, code := c,
         currentCodeLen := (escalate st.code st.currentCodeLen).1,
         nextCode := st.nextCode },
       Event.diag ::
         ((escalate st.code st.currentCodeLen).2 ++
           [Event.emitCode st.code (escalate st.code st.currentCodeLen).1])) := by
  rw [encodeStep, hf]
  simp [hm, hr]

theorem encodeStep_len {st : EncState} (c : Nat) (h : st.currentCodeLen ≤ MAX_CODE_LEN) :
    st.currentCodeLen ≤ (encodeStep st c).1.currentCodeLen ∧
      (encodeStep st c).1.currentCodeLen ≤ MAX_CODE_LEN := by
  cases hf : FindDictionaryEntry st.dict st.code c with
  | none => rw [encodeStep_none hf]; exact ⟨Nat.le_refl _, h⟩
  | some node =>
    by_cases hm : node.prefixCode = st.code ∧ node.suffixChar = c
    · rw [encodeStep_match hf hm]; exact ⟨Nat.le_refl _, h⟩
    · obtain ⟨h1, h2, _, _⟩ := escalate_spec st.code st.currentCodeLen h
      by_cases hr : st.nextCode < MAX_CODES
      · rw [encodeStep_novel_room hf hm hr]; exact ⟨h1, h2⟩
      · rw [encodeStep_novel_full hf hm hr]; exact ⟨h1, h2⟩

theorem runLoop_cons (st : EncState) (c : Nat) (cs : List Nat) :
    runLoop st (c :: cs) =
      ((runLoop (encodeStep st c).1 cs).1,
        (encodeStep st c).2 ++ (runLoop (encodeStep st c).1 cs).2) := by
  rw [runLoop]

theorem runLoop_nil (st : EncState) : runLoop st [] = (st, []) := rfl

/-- C2: `currentWidth` starts at 9 (Seed state), the escalation loop — the
only place the width changes — only ever raises it, keeps it within
`[9, MAX_CODE_LEN]`, and performs every single increment immediately after
emitting the all-ones escape code word at the pre-increase width (the
`escapeEvents` shape); consequently the width is non-decreasing and bounded
across the whole Running loop. -/
theorem C2_width_protocol :
    (∀ c0 c1, (encInitState c0 c1).currentCodeLen = 9) ∧
    (∀ code len, 9 ≤ len → len ≤ MAX_CODE_LEN →
      len ≤ (escalate code len).1 ∧ 9 ≤ (escalate code len).1 ∧
        (escalate code len).1 ≤ MAX_CODE_LEN ∧
        (escalate code len).2 = escapeEvents len (escalate code len).1) ∧
    (∀ st c, (encodeStep st c).1.currentCodeLen = st.currentCodeLen ∨
      (encodeStep st c).1.currentCodeLen = (escalate st.code st.currentCodeLen).1) ∧
    (∀ cs st, 9 ≤ st.currentCodeLen → st.currentCodeLen ≤ MAX_CODE_LEN →
      st.currentCodeLen ≤ (runLoop st cs).1.currentCodeLen ∧
        (runLoop st cs).1.currentCodeLen ≤ MAX_CODE_LEN) := by
  refine ⟨fun c0 c1 => rfl, ?_, ?_, ?_⟩
  · intro code len h9 h20
    obtain ⟨h1, h2, h3, _⟩ := escalate_spec code len h20
    exact ⟨h1, Nat.le_trans h9 h1, h2, h3⟩
  · intro st c
    cases hf : FindDictionaryEntry st.dict st.code c with
    | none => left; rw [encodeStep_none hf]
    | some node =>
      by_cases hm : node.prefixCode = st.code ∧ node.suffixChar = c
      · left; rw [encodeStep_match hf hm]
      · right
        by_cases hr : st.nextCode < MAX_CODES
        · rw [encodeStep_novel_room hf hm hr]
        · rw [encodeStep_novel_full hf hm hr]
  · intro cs
    induction cs with
    | nil => intro st h9 h20; rw [runLoop_nil]; exact ⟨Nat.le_refl _, h20⟩
    | cons c cs ih =>
      intro st h9 h20
      rw [runLoop_cons]
      obtain ⟨hs1, hs2⟩ := encodeStep_len c h20
      obtain ⟨hr1, hr2⟩ := ih (encodeStep st c).1 (Nat.le_trans h9 hs1) hs2
      exact ⟨Nat.le_trans hs1 hr1, hr2⟩

/-- Witness for C2 at concrete inputs. -/
theorem C2_width_protocol_witness :
    (encInitState 65 66).currentCodeLen = 9 ∧
      (9 ≤ (escalate 511 9).1 ∧
        (escalate 511 9).2 = escapeEvents 9 (escalate 511 9).1) ∧
      (runLoop (encInitState 65 66) [67]).1.currentCodeLen ≤ MAX_CODE_LEN := by
  have h := C2_width_protocol
  exact ⟨h.1 65 66,
    ⟨(h.2.1 511 9 (by decide) (by decide)).2.1,
      (h.2.1 511 9 (by decide) (by decide)).2.2.2⟩,
    (h.2.2.2 [67] (encInitState 65 66) (by decide) (by decide)).2⟩

theorem emitCode_not_mem_escapeEvents (v w a b : Nat) :
    Event.emitCode v w ∉ escapeEvents a b := by
  simp [escapeEvents]

theorem runLoop_emit_bound :
    ∀ (cs : List Nat) (st : EncState), st.currentCodeLen ≤ MAX_CODE_LEN →
      ∀ v w, Event.emitCode v w ∈ (runLoop st cs).2 →
        v < 2 ^ w - 1 ∨ w = MAX_CODE_LEN := by
  intro cs
  induction cs with
  | nil => intro st h v w hm; rw [runLoop_nil] at hm; simp at hm
  | cons c cs ih =>
    intro st h v w hm
    rw [runLoop_cons, List.mem_append] at hm
    rcases hm with hm | hm
    · cases hf : FindDictionaryEntry st.dict st.code c with
      | none => rw [encodeStep_none hf] at hm; simp at hm
      | some node =>
        by_cases hmm : node.prefixCode = st.code ∧ node.suffixChar = c
        · rw [encodeStep_match hf hmm] at hm; simp at hm
        · obtain ⟨h1, h2, h3, h4⟩ := escalate_spec st.code st.currentCodeLen h
          have main : Event.emitCode v w ∈
              Event.insert st.nextCode st.code c ::
                ((escalate st.code st.currentCodeLen).2 ++
                  [Event.emitCode st.code (escalate st.code st.currentCodeLen).1]) ∨
              Event.emitCode v w ∈
              Event.diag ::
                ((escalate st.code st.currentCodeLen).2 ++
                  [Event.emitCode st.code (escalate st.code st.currentCodeLen).1]) := by
            by_cases hr : st.nextCode < MAX_CODES
            · left; rw [encodeStep_novel_room hf hmm hr] at hm; exact hm
            · right; rw [encodeStep_novel_full hf hmm hr] at hm; exact hm
          have hmem : Event.emitCode v w ∈
              (escalate st.code st.currentCodeLen).2 ++
                [Event.emitCode st.code (escalate st.code st.currentCodeLen).1] := by
            rcases main with hmain | hmain <;> · rw [List.mem_cons] at hmain
                                                 rcases hmain with hx | hx
                                                 · exact absurd hx (by simp)
                                                 · exact hx
          rw [List.mem_append] at hmem
          rcases hmem with hx | hx
          · rw [h3] at hx
            exact absurd hx (emitCode_not_mem_escapeEvents v w _ _)
          · rw [List.mem_singleton] at hx
            obtain ⟨hv, hw⟩ : v = st.code ∧ w = (escalate st.code st.currentCodeLen).1 := by
              cases hx; exact ⟨rfl, rfl⟩
            rw [hv, hw]
            exact h4
    · exact ih _ (encodeStep_len c h).2 v w hm

/-- C1 amended: the escalation check runs before each code word the Running
loop emits (and before no other emission), so every regular (non-escape) code
word other than the single trailing Final emission, at width `w`, has value
strictly less than `2 ^ w - 1` unless the width has already reached
`MAX_CODE_LEN`; the trailing emission is not covered (see
`C1_counterexample`). -/
theorem C1_amended_running_bound :
    ∀ input stF evs, (∀ b ∈ input, b < 256) →
      LZWEncode input = some (stF, evs) →
      ∀ v w, Event.emitCode v w ∈ evs.dropLast →
        v < 2 ^ w - 1 ∨ w = MAX_CODE_LEN := by
  intro input stF evs hb h v w hmem
  match input with
  | [] => simp [LZWEncode] at h
  | [c0] =>
    simp only [LZWEncode, Option.some.injEq, Prod.mk.injEq] at h
    rw [← h.2] at hmem
    simp at hmem
  | c0 :: c1 :: rest =>
    simp only [LZWEncode, Option.some.injEq, Prod.mk.injEq] at h
    rw [← h.2] at hmem
    have hsplit :
        Event.insert FIRST_CODE c0 c1 :: Event.emitCode c0 9 ::
            ((runLoop (encInitState c0 c1) rest).2 ++
              [Event.emitCode (runLoop (encInitState c0 c1) rest).1.code
                (runLoop (encInitState c0 c1) rest).1.currentCodeLen]) =
          (Event.insert FIRST_CODE c0 c1 :: Event.emitCode c0 9 ::
            (runLoop (encInitState c0 c1) rest).2) ++
            [Event.emitCode (runLoop (encInitState c0 c1) rest).1.code
              (runLoop (encInitState c0 c1) rest).1.currentCodeLen] := by
      simp
    rw [hsplit, List.dropLast_concat, List.mem_cons, List.mem_cons] at hmem
    rcases hmem with hx | hx | hx
    · exact absurd hx (by simp)
    · obtain ⟨hv, hw⟩ : v = c0 ∧ w = 9 := by cases hx; exact ⟨rfl, rfl⟩
      left
      have hc0 : c0 < 256 := hb c0 (by simp)
      have h511 : (2 : Nat) ^ 9 - 1 = 511 := by norm_num
      rw [hv, hw, h511]
      omega
    · exact runLoop_emit_bound rest (encInitState c0 c1)
        (show (9 : Nat) ≤ MAX_CODE_LEN by decide) v w hx

/-- Witness for the amended C1 at the input `65 65 65 65`, whose Running loop
emits the dictionary code 256 at width 9. -/
theorem C1_amended_running_bound_witness :
    256 < 2 ^ 9 - 1 ∨ 9 = MAX_CODE_LEN :=
  C1_amended_running_bound [65, 65, 65, 65]
    { dict := .node ⟨256, 65, 65⟩ .leaf (.node ⟨257, 256, 65⟩ .leaf .leaf),
      code := 65, currentCodeLen := 9, nextCode := 258 }
    [.insert 256 65 65, .emitCode 65 9, .insert 257 256 65, .emitCode 256 9,
      .emitCode 65 9]
    (by decide) rfl 256 9 (by decide)

theorem find_isSome :
    ∀ (t : DictTree), t ≠ DictTree.leaf → ∀ p c,
      (FindDictionaryEntry t p c).isSome := by
  intro t
  induction t with
  | leaf => intro h; exact absurd rfl h
  | node e l r ihl ihr =>
    intro _ p c
    unfold FindDictionaryEntry
    by_cases h1 : keyOf e = MakeKey p c
    · simp [h1]
    · rw [if_neg h1]
      by_cases h2 : MakeKey p c < keyOf e
      · rw [if_pos h2]
        cases l with
        | leaf => simp
        | node e2 l2 r2 => exact ihl (by simp) p c
      · rw [if_neg h2]
        cases r with
        | leaf => simp
        | node e2 l2 r2 => exact ihr (by simp) p c

theorem insertEntry_ne_leaf (t : DictTree) (x : Entry) :
    insertEntry t x ≠ DictTree.leaf := by
  cases t with
  | leaf => simp [insertEntry]
  | node e l r =>
    rw [insertEntry]
    split <;> simp

/-- C9: the Seed step hands the Running loop a non-empty dictionary, the
dictionary never becomes empty again, and on a non-empty dictionary
`FindDictionaryEntry` always returns an entry (never the empty-tree `NULL`
result), so the driver's field accesses on the returned node are on a valid
entry. -/
theorem C9_lookup_never_null :
    (∀ c0 c1, (encInitState c0 c1).dict ≠ DictTree.leaf) ∧
    (∀ st c, st.dict ≠ DictTree.leaf →
      (FindDictionaryEntry st.dict st.code c).isSome ∧
        (encodeStep st c).1.dict ≠ DictTree.leaf) := by
  constructor
  · intro c0 c1
    simp [encInitState]
  · intro st c h
    refine ⟨find_isSome _ h _ _, ?_⟩
    cases hf : FindDictionaryEntry st.dict st.code c with
    | none => rw [encodeStep_none hf]; exact h
    | some node =>
      by_cases hm : node.prefixCode = st.code ∧ node.suffixChar = c
      · rw [encodeStep_match hf hm]; exact h
      · by_cases hr : st.nextCode < MAX_CODES
        · rw [encodeStep_novel_room hf hm hr]
          exact insertEntry_ne_leaf _ _
        · rw [encodeStep_novel_full hf hm hr]; exact h

/-- Witness for C9 at a concrete one-entry dictionary state. -/
theorem C9_lookup_never_null_witness :
    (FindDictionaryEntry
        (EncState.mk (.node ⟨256, 65, 65⟩ .leaf .leaf) 65 9 257).dict
        (EncState.mk (.node ⟨256, 65, 65⟩ .leaf .leaf) 65 9 257).code 66).isSome ∧
      (encodeStep (EncState.mk (.node ⟨256, 65, 65⟩ .leaf .leaf) 65 9 257) 66).1.dict ≠
        DictTree.leaf :=
  C9_lookup_never_null.2 (EncState.mk (.node ⟨256, 65, 65⟩ .leaf .leaf) 65 9 257) 66
    (by decide)

theorem treeSize_insert (t : DictTree) (x : Entry) :
    treeSize (insertEntry t x) = treeSize t + 1 := by
  induction t with
  | leaf => simp [insertEntry, treeSize, entriesOf]
  | node e l r ihl ihr =>
    rw [insertEntry]
    simp only [treeSize, entriesOf, List.length_append, List.length_cons] at *
    split
    · simp only [entriesOf, List.length_append, List.length_cons]
      omega
    · simp only [entriesOf, List.length_append, List.length_cons]
      omega

/-- C5: the entry count plus 256 always equals `nextCode`, which never
exceeds `MAX_CODES = 2 ^ 20`, so the dictionary never holds more than `2 ^ 20`
entries; once `nextCode` has reached `MAX_CODES`, a step leaves the
dictionary and `nextCode` unchanged, and on a novel pair it logs the
non-fatal `Dictionary Full` diagnostic while still emitting the pending code
word and continuing with `code = c`; and the whole encode operation is a
total function that produces a result for every non-empty input. -/
theorem C5_capacity_bound :
    (∀ st c, treeSize st.dict + FIRST_CODE = st.nextCode →
      st.nextCode ≤ MAX_CODES →
      treeSize (encodeStep st c).1.dict + FIRST_CODE = (encodeStep st c).1.nextCode ∧
        (encodeStep st c).1.nextCode ≤ MAX_CODES ∧
        treeSize (encodeStep st c).1.dict ≤ MAX_CODES) ∧
    (∀ st c, st.nextCode = MAX_CODES →
      (encodeStep st c).1.dict = st.dict ∧
        (encodeStep st c).1.nextCode = MAX_CODES) ∧
    (∀ st c node, FindDictionaryEntry st.dict st.code c = some node →
      ¬(node.prefixCode = st.code ∧ node.suffixChar = c) →
      st.nextCode = MAX_CODES →
      Event.diag ∈ (encodeStep st c).2 ∧
        Event.emitCode st.code (escalate st.code st.currentCodeLen).1 ∈
          (encodeStep st c).2 ∧
        (encodeStep st c).1.code = c) ∧
    (∀ input : List Nat, input ≠ [] → (LZWEncode input).isSome) := by
  refine ⟨?_, ?_, ?_, ?_⟩
  · intro st c hsize hle
    have base : ∀ st' : EncState,
        st'.dict = st.dict → st'.nextCode = st.nextCode →
        treeSize st'.dict + FIRST_CODE = st'.nextCode ∧
          st'.nextCode ≤ MAX_CODES ∧ treeSize st'.dict ≤ MAX_CODES := by
      intro st' h1 h2
      rw [h1, h2]
      refine ⟨hsize, hle, ?_⟩
      have h256 : FIRST_CODE = 256 := by decide
      omega
    cases hf : FindDictionaryEntry st.dict st.code c with
    | none => rw [encodeStep_none hf]; exact base st rfl rfl
    | some node =>
      by_cases hm : node.prefixCode = st.code ∧ node.suffixChar = c
      · rw [encodeStep_match hf hm]; exact base _ rfl rfl
      · by_cases hr : st.nextCode < MAX_CODES
        · rw [encodeStep_novel_room hf hm hr]
          simp only [treeSize_insert]
          have h256 : FIRST_CODE = 256 := by decide
          refine ⟨by omega, by omega, by omega⟩
        · rw [encodeStep_novel_full hf hm hr]; exact base _ rfl rfl
  · intro st c hfull
    have hr : ¬ st.nextCode < MAX_CODES := by omega
    cases hf : FindDictionaryEntry st.dict st.code c with
    | none => rw [encodeStep_none hf]; exact ⟨rfl, hfull⟩
    | some node =>
      by_cases hm : node.prefixCode = st.code ∧ node.suffixChar = c
      · rw [encodeStep_match hf hm]; exact ⟨rfl, hfull⟩
      · rw [encodeStep_novel_full hf hm hr]; exact ⟨rfl, hfull⟩
  · intro st c node hf hm hfull
    have hr : ¬ st.nextCode < MAX_CODES := by omega
    rw [encodeStep_novel_full hf hm hr]
    simp
  · intro input h
    match input with
    | [] => exact absurd rfl h
    | [c0] => simp [LZWEncode]
    | c0 :: c1 :: rest => simp [LZWEncode]

/-- Witness for C5 at concrete states: a one-entry dictionary below the cap,
and a one-entry dictionary whose `nextCode` has reached the cap stepped on
the novel pair `(66, 67)`. -/
theorem C5_capacity_bound_witness :
    (treeSize (encodeStep (EncState.mk (.node ⟨256, 65, 65⟩ .leaf .leaf) 65 9 257)
        66).1.dict + FIRST_CODE =
      (encodeStep (EncState.mk (.node ⟨256, 65, 65⟩ .leaf .leaf) 65 9 257)
        66).1.nextCode) ∧
      ((encodeStep (EncState.mk (.node ⟨256, 65, 65⟩ .leaf .leaf) 66 9 MAX_CODES)
          67).1.dict = .node ⟨256, 65, 65⟩ .leaf .leaf) ∧
      Event.diag ∈
        (encodeStep (EncState.mk (.node ⟨256, 65, 65⟩ .leaf .leaf) 66 9 MAX_CODES)
          67).2 ∧
      (LZWEncode [90]).isSome := by
  have h := C5_capacity_bound
  refine ⟨(h.1 (EncState.mk (.node ⟨256, 65, 65⟩ .leaf .leaf) 65 9 257) 66
      (by decide) (by decide)).1,
    (h.2.1 (EncState.mk (.node ⟨256, 65, 65⟩ .leaf .leaf) 66 9 MAX_CODES) 67
      (by decide)).1,
    (h.2.2.1 (EncState.mk (.node ⟨256, 65, 65⟩ .leaf .leaf) 66 9 MAX_CODES) 67
      ⟨256, 65, 65⟩ (by decide) (by decide) (by decide)).1,
    h.2.2.2 [90] (by decide)⟩

set_option maxRecDepth 2000 in
theorem nibble_split :
    ∀ s, s < 256 → s &&& 0xF0 = 16 * (s / 16) ∧ s &&& 0x0F = s % 16 := by
  decide

theorem shiftLeft_or_eq_add (a n b : Nat) (hb : b < 2 ^ n) :
    a <<< n ||| b = a <<< n + b := by
  apply Nat.eq_of_testBit_eq
  intro j
  rw [Nat.testBit_or]
  rcases Nat.lt_or_ge j n with hj | hj
  · have h1 : (a <<< n).testBit j = false := by
      rw [Nat.testBit_shiftLeft]
      simp [Nat.not_le.mpr hj]
    rw [h1, Bool.false_or, Nat.shiftLeft_eq]
    obtain ⟨k, rfl⟩ : ∃ k, n = j + k + 1 := ⟨n - j - 1, by omega⟩
    rw [Nat.testBit_to_div_mod, Nat.testBit_to_div_mod]
    have hsum : a * 2 ^ (j + k + 1) + b = b + (a * 2 ^ (k + 1)) * 2 ^ j := by
      ring
    rw [hsum, Nat.add_mul_div_right _ _ (Nat.two_pow_pos j)]
    have hmod : (b / 2 ^ j + a * 2 ^ (k + 1)) % 2 = b / 2 ^ j % 2 := by
      rw [Nat.pow_succ, ← Nat.mul_assoc, Nat.add_mul_mod_self_right]
    rw [hmod]
  · have h1 : (a <<< n).testBit j = a.testBit (j - n) := by
      rw [Nat.testBit_shiftLeft]
      simp [hj]
    have h2 : b.testBit j = false :=
      Nat.testBit_lt_two_pow
        (Nat.lt_of_lt_of_le hb (Nat.pow_le_pow_right (by norm_num) hj))
    rw [h1, h2, Bool.or_false, Nat.shiftLeft_eq]
    obtain ⟨k, rfl⟩ : ∃ k, j = n + k := ⟨j - n, by omega⟩
    rw [Nat.add_sub_cancel_left, Nat.testBit_to_div_mod, Nat.testBit_to_div_mod]
    have hdiv : (a * 2 ^ n + b) / 2 ^ (n + k) = a / 2 ^ k := by
      rw [Nat.pow_add, ← Nat.div_div_eq_div_mul]
      have h3 : (a * 2 ^ n + b) / 2 ^ n = a := by
        rw [Nat.add_comm, Nat.add_mul_div_right _ _ (Nat.two_pow_pos n),
          Nat.div_eq_of_lt hb, Nat.zero_add]
      rw [h3]
    rw [hdiv]

theorem MakeKey_eq (p s : Nat) (hp : p < MAX_CODES) (hs : s < 256) :
    MakeKey p s = (s / 16) * 2 ^ 24 + p * 16 + s % 16 := by
  obtain ⟨h1, h2⟩ := nibble_split s hs
  rw [MakeKey, h1, h2]
  have hp20 : p < 1048576 := by
    have hmc : MAX_CODES = 1048576 := by decide
    omega
  have e1 : (16 * (s / 16)) <<< MAX_CODE_LEN = (s / 16) <<< 24 := by
    rw [Nat.shiftLeft_eq, Nat.shiftLeft_eq,
      show MAX_CODE_LEN = 20 from rfl,
      show (2 : Nat) ^ 24 = 16 * 2 ^ 20 by norm_num]
    ring
  have e2 : p <<< 4 ||| s % 16 = p * 16 + s % 16 := by
    have hlt : s % 16 < 2 ^ 4 := by
      rw [show (2 : Nat) ^ 4 = 16 by norm_num]
      exact Nat.mod_lt _ (by norm_num)
    rw [shiftLeft_or_eq_add p 4 (s % 16) hlt, Nat.shiftLeft_eq,
      show (2 : Nat) ^ 4 = 16 by norm_num]
  have e3 : (s / 16) <<< 24 ||| (p * 16 + s % 16) =
      (s / 16) * 2 ^ 24 + (p * 16 + s % 16) := by
    rw [shiftLeft_or_eq_add _ 24 _
      (by rw [show (2 : Nat) ^ 24 = 16777216 by norm_num]; omega), Nat.shiftLeft_eq]
  rw [e1, Nat.or_assoc, e2, e3]
  rw [Nat.mod_eq_of_lt]
  · ring
  · rw [show (2 : Nat) ^ 24 = 16777216 by norm_num,
      show (2 : Nat) ^ 32 = 4294967296 by norm_num]
    omega

/-- C8: on the intended domain — prefix codes below `MAX_CODES = 2 ^ 20` and
byte-valued suffixes — `MakeKey` is injective (two distinct pairs never get
the same key), and comparing keys with `<` gives the trichotomy of a strict
total order on such pairs. -/
theorem C8_MakeKey_injective :
    ∀ p1 s1 p2 s2, p1 < MAX_CODES → p2 < MAX_CODES → s1 < 256 → s2 < 256 →
      ((MakeKey p1 s1 = MakeKey p2 s2) ↔ (p1 = p2 ∧ s1 = s2)) ∧
      (MakeKey p1 s1 < MakeKey p2 s2 ∨ MakeKey p1 s1 = MakeKey p2 s2 ∨
        MakeKey p2 s2 < MakeKey p1 s1) := by
  intro p1 s1 p2 s2 hp1 hp2 hs1 hs2
  refine ⟨?_, Nat.lt_trichotomy _ _⟩
  rw [MakeKey_eq p1 s1 hp1 hs1, MakeKey_eq p2 s2 hp2 hs2]
  have hmc : MAX_CODES = 1048576 := by decide
  rw [hmc] at hp1 hp2
  rw [show (2 : Nat) ^ 24 = 16777216 by norm_num]
  constructor
  · intro h
    omega
  · rintro ⟨rfl, rfl⟩
    rfl

/-- Witness for C8 at the concrete pairs `(256, 65)` and `(256, 66)`. -/
theorem C8_MakeKey_injective_witness :
    ((MakeKey 256 65 = MakeKey 256 66) ↔ ((256 : Nat) = 256 ∧ (65 : Nat) = 66)) ∧
      (MakeKey 256 65 < MakeKey 256 66 ∨ MakeKey 256 65 = MakeKey 256 66 ∨
        MakeKey 256 66 < MakeKey 256 65) :=
  C8_MakeKey_injective 256 65 256 66 (by decide) (by decide) (by decide) (by decide)

theorem MakeKey_inj {p1 s1 p2 s2 : Nat} (hp1 : p1 < MAX_CODES) (hp2 : p2 < MAX_CODES)
    (hs1 : s1 < 256) (hs2 : s2 < 256) (h : MakeKey p1 s1 = MakeKey p2 s2) :
    p1 = p2 ∧ s1 = s2 := by
  rw [MakeKey_eq p1 s1 hp1 hs1, MakeKey_eq p2 s2 hp2 hs2] at h
  have hmc : MAX_CODES = 1048576 := by decide
  rw [hmc] at hp1 hp2
  rw [show (2 : Nat) ^ 24 = 16777216 by norm_num] at h
  omega

theorem mem_insertEntry {t : DictTree} {x e' : Entry} :
    e' ∈ entriesOf (insertEntry t x) ↔ e' = x ∨ e' ∈ entriesOf t := by
  induction t with
  | leaf => simp [insertEntry, entriesOf]
  | node e l r ihl ihr =>
    rw [insertEntry]
    split
    · simp only [entriesOf, List.mem_append, List.mem_cons, ihl]
      tauto
    · simp only [entriesOf, List.mem_append, List.mem_cons, ihr]
      tauto

theorem insertEntry_SearchTree {t : DictTree} {x : Entry}
    (hs : SearchTree t) (hx : ∀ e ∈ entriesOf t, keyOf e ≠ keyOf x) :
    SearchTree (insertEntry t x) := by
  induction t with
  | leaf =>
    simp [insertEntry, SearchTree, keysBelow, keysAbove, entriesOf]
  | node e l r ihl ihr =>
    simp only [SearchTree] at hs
    obtain ⟨hb, ha, hl, hr⟩ := hs
    rw [insertEntry]
    split
    · rename_i hlt
      refine ⟨?_, ha, ihl hl ?_, hr⟩
      · intro e' he'
        rcases mem_insertEntry.mp he' with rfl | he'
        · exact hlt
        · exact hb e' he'
      · intro e' he'
        exact hx e' (by simp [entriesOf, he'])
    · rename_i hnlt
      have hgt : keyOf e < keyOf x := by
        rcases Nat.lt_trichotomy (keyOf x) (keyOf e) with h1 | h1 | h1
        · exact absurd h1 hnlt
        · exact absurd h1.symm (hx e (by simp [entriesOf]))
        · exact h1
      refine ⟨hb, ?_, hl, ihr hr ?_⟩
      · intro e' he'
        rcases mem_insertEntry.mp he' with rfl | he'
        · exact hgt
        · exact ha e' he'
      · intro e' he'
        exact hx e' (by simp [entriesOf, he'])

theorem mem_node_left {e e0 : Entry} {l r : DictTree} (h : e ∈ entriesOf l) :
    e ∈ entriesOf (DictTree.node e0 l r) := by
  simp only [entriesOf, List.mem_append, List.mem_cons]
  exact Or.inl h

theorem mem_node_right {e e0 : Entry} {l r : DictTree} (h : e ∈ entriesOf r) :
    e ∈ entriesOf (DictTree.node e0 l r) := by
  simp only [entriesOf, List.mem_append, List.mem_cons]
  exact Or.inr (Or.inr h)

theorem find_sound : ∀ (t : DictTree) (p c : Nat) (e : Entry),
    FindDictionaryEntry t p c = some e → e ∈ entriesOf t := by
  intro t
  induction t with
  | leaf => intro p c e h; simp [FindDictionaryEntry] at h
  | node e0 l r ihl ihr =>
    intro p c e h
    unfold FindDictionaryEntry at h
    by_cases h1 : keyOf e0 = MakeKey p c
    · rw [if_pos h1] at h
      injection h with h
      simp [entriesOf, ← h]
    · rw [if_neg h1] at h
      by_cases h2 : MakeKey p c < keyOf e0
      · rw [if_pos h2] at h
        cases l with
        | leaf =>
          injection h with h
          simp [entriesOf, ← h]
        | node e2 l2 r2 =>
          exact mem_node_left (ihl p c e h)
      · rw [if_neg h2] at h
        cases r with
        | leaf =>
          injection h with h
          simp [entriesOf, ← h]
        | node e2 l2 r2 =>
          exact mem_node_right (ihr p c e h)

theorem find_complete : ∀ (t : DictTree), SearchTree t → ∀ (p c : Nat) (e : Entry),
    e ∈ entriesOf t → keyOf e = MakeKey p c → FindDictionaryEntry t p c = some e := by
  intro t
  induction t with
  | leaf => intro _ p c e he _; simp [entriesOf] at he
  | node e0 l r ihl ihr =>
    intro hs p c e he hk
    simp only [SearchTree] at hs
    obtain ⟨hb, ha, hsl, hsr⟩ := hs
    unfold FindDictionaryEntry
    simp only [entriesOf, List.mem_append, List.mem_cons] at he
    by_cases h1 : keyOf e0 = MakeKey p c
    · rw [if_pos h1]
      rcases he with he | he | he
      · have hcontra := hb e he
        rw [hk, h1] at hcontra
        exact absurd hcontra (Nat.lt_irrefl _)
      · rw [he]
      · have hcontra := ha e he
        rw [hk, h1] at hcontra
        exact absurd hcontra (Nat.lt_irrefl _)
    · rw [if_neg h1]
      by_cases h2 : MakeKey p c < keyOf e0
      · rw [if_pos h2]
        have hel : e ∈ entriesOf l := by
          rcases he with he | he | he
          · exact he
          · exact absurd (by rw [← he]; exact hk) h1
          · have := ha e he
            rw [hk] at this
            omega
        cases l with
        | leaf => simp [entriesOf] at hel
        | node e2 l2 r2 => exact ihl hsl p c e hel hk
      · rw [if_neg h2]
        have her : e ∈ entriesOf r := by
          rcases he with he | he | he
          · have := hb e he
            rw [hk] at this
            omega
          · exact absurd (by rw [← he]; exact hk) h1
          · exact he
        cases r with
        | leaf => simp [entriesOf] at her
        | node e2 l2 r2 => exact ihr hsr p c e her hk

theorem novel_not_mem {st : EncState} {c : Nat} {node : Entry} (hinv : EncInv st)
    (hc : c < 256) (hf : FindDictionaryEntry st.dict st.code c = some node)
    (hm : ¬(node.prefixCode = st.code ∧ node.suffixChar = c)) :
    ∀ e ∈ entriesOf st.dict, keyOf e ≠ MakeKey st.code c := by
  intro e he hkey
  obtain ⟨_, hlt, hpc, hsc⟩ := hinv.entryBound e he
  have hnextLe := hinv.nextLe
  have hpcM : e.prefixCode < MAX_CODES := by omega
  have hcodeLt := hinv.codeLt
  have hcodeM : st.code < MAX_CODES := by omega
  obtain ⟨h1, h2⟩ := MakeKey_inj hpcM hcodeM hsc hc hkey
  have hfeq := find_complete st.dict hinv.search st.code c e he hkey
  rw [hf] at hfeq
  injection hfeq with h3
  exact hm (by rw [h3]; exact ⟨h1, h2⟩)

theorem FIRST_CODE_eq : FIRST_CODE = 256 := by decide

theorem encodeStep_inv {st : EncState} {c : Nat} (hinv : EncInv st) (hc : c < 256) :
    EncInv (encodeStep st c).1 := by
  cases hf : FindDictionaryEntry st.dict st.code c with
  | none => rw [encodeStep_none hf]; exact hinv
  | some node =>
    by_cases hm : node.prefixCode = st.code ∧ node.suffixChar = c
    · rw [encodeStep_match hf hm]
      have hmem := find_sound st.dict st.code c node hf
      obtain ⟨_, hlt, _, _⟩ := hinv.entryBound node hmem
      exact { search := hinv.search, entryBound := hinv.entryBound,
              contig := hinv.contig, codeLt := hlt, nextLe := hinv.nextLe,
              nextGe := hinv.nextGe, sizeEq := hinv.sizeEq }
    · by_cases hr : st.nextCode < MAX_CODES
      · rw [encodeStep_novel_room hf hm hr]
        have hnot := novel_not_mem hinv hc hf hm
        have hge := hinv.nextGe
        have hcodeLt := hinv.codeLt
        refine { search := ?_, entryBound := ?_, contig := ?_, codeLt := ?_,
                 nextLe := ?_, nextGe := ?_, sizeEq := ?_ } <;> dsimp only
        · exact insertEntry_SearchTree hinv.search (fun e he => hnot e he)
        · intro e he
          rcases mem_insertEntry.mp he with rfl | he
          · exact ⟨hge, by dsimp only; omega, hcodeLt, hc⟩
          · obtain ⟨a, b, d, f⟩ := hinv.entryBound e he
            exact ⟨a, by omega, d, f⟩
        · intro k hk1 hk2
          by_cases hk : k < st.nextCode
          · obtain ⟨e, he, hee⟩ := hinv.contig k hk1 hk
            exact ⟨e, mem_insertEntry.mpr (Or.inr he), hee⟩
          · have hkk : k = st.nextCode := by omega
            exact ⟨⟨st.nextCode, st.code, c⟩, mem_insertEntry.mpr (Or.inl rfl),
              by rw [hkk]⟩
        · have := FIRST_CODE_eq
          omega
        · omega
        · omega
        · have := hinv.sizeEq
          simp only [treeSize_insert]
          omega
      · rw [encodeStep_novel_full hf hm hr]
        have := FIRST_CODE_eq
        have hge := hinv.nextGe
        exact { search := hinv.search, entryBound := hinv.entryBound,
                contig := hinv.contig, codeLt := by dsimp only; omega,
                nextLe := hinv.nextLe, nextGe := hinv.nextGe,
                sizeEq := hinv.sizeEq }

theorem encInitState_inv {c0 c1 : Nat} (h0 : c0 < 256) (h1 : c1 < 256) :
    EncInv (encInitState c0 c1) := by
  have h256 := FIRST_CODE_eq
  refine { search := ?_, entryBound := ?_, contig := ?_, codeLt := ?_,
           nextLe := ?_, nextGe := ?_, sizeEq := ?_ }
  · simp [encInitState, SearchTree, keysBelow, keysAbove, entriesOf]
  · intro e he
    simp only [encInitState, entriesOf, List.mem_append, List.mem_cons,
      List.not_mem_nil, or_false, false_or] at he
    rw [he]
    refine ⟨?_, ?_, ?_, h1⟩ <;> dsimp only [encInitState] <;> omega
  · intro k hk1 hk2
    have hkk : k = FIRST_CODE := by
      dsimp only [encInitState] at hk2
      omega
    exact ⟨⟨FIRST_CODE, c0, c1⟩, by simp [encInitState, entriesOf], by rw [hkk]⟩
  · dsimp only [encInitState]
    omega
  · have : MAX_CODES = 1048576 := by decide
    dsimp only [encInitState]
    omega
  · dsimp only [encInitState]
    omega
  · simp only [encInitState, treeSize, entriesOf, List.length_append,
      List.length_cons, List.length_nil]
    omega

theorem runLoop_inv : ∀ (cs : List Nat) (st : EncState), EncInv st →
    (∀ b ∈ cs, b < 256) → EncInv (runLoop st cs).1 := by
  intro cs
  induction cs with
  | nil => intro st h _; rw [runLoop_nil]; exact h
  | cons c cs ih =>
    intro st h hb
    rw [runLoop_cons]
    exact ih _ (encodeStep_inv h (hb c (by simp))) (fun b hbm => hb b (by simp [hbm]))

theorem escalateGo_shape :
    ∀ (fuel len code : Nat), ∀ x ∈ (escalateGo code len fuel).2,
      ∃ v w, x = Event.emitEsc v w := by
  intro fuel
  induction fuel with
  | zero => intro len code x hx; simp [escalateGo] at hx
  | succ fuel ih =>
    intro len code x hx
    rw [escalateGo] at hx
    by_cases hcond : CURRENT_MAX_CODES len - 1 ≤ code ∧ len < MAX_CODE_LEN
    · rw [if_pos hcond] at hx
      rcases List.mem_cons.mp hx with rfl | hx
      · exact ⟨_, _, rfl⟩
      · exact ih (len + 1) code x hx
    · rw [if_neg hcond] at hx
      simp at hx

theorem escalate_shape {code len : Nat} {x : Event}
    (h : x ∈ (escalate code len).2) : ∃ v w, x = Event.emitEsc v w :=
  escalateGo_shape (MAX_CODE_LEN - len) len code x h

theorem insertPairs_append (a b : List Event) :
    insertPairs (a ++ b) = insertPairs a ++ insertPairs b := by
  simp [insertPairs, List.filterMap_append]

theorem insertCodes_append (a b : List Event) :
    insertCodes (a ++ b) = insertCodes a ++ insertCodes b := by
  simp [insertCodes, List.filterMap_append]

theorem insertPairs_nil {l : List Event}
    (h : ∀ x ∈ l, ∀ cw pc sc, x ≠ Event.insert cw pc sc) : insertPairs l = [] := by
  induction l with
  | nil => rfl
  | cons a t ih =>
    have ht := ih (fun x hx => h x (by simp [hx]))
    cases a with
    | insert cw pc sc => exact absurd rfl (h _ (by simp) cw pc sc)
    | emitCode v w => simpa [insertPairs] using ht
    | emitEsc v w => simpa [insertPairs] using ht
    | diag => simpa [insertPairs] using ht

theorem insertCodes_nil {l : List Event}
    (h : ∀ x ∈ l, ∀ cw pc sc, x ≠ Event.insert cw pc sc) : insertCodes l = [] := by
  induction l with
  | nil => rfl
  | cons a t ih =>
    have ht := ih (fun x hx => h x (by simp [hx]))
    cases a with
    | insert cw pc sc => exact absurd rfl (h _ (by simp) cw pc sc)
    | emitCode v w => simpa [insertCodes] using ht
    | emitEsc v w => simpa [insertCodes] using ht
    | diag => simpa [insertCodes] using ht

theorem append_split {α : Type} {past evs l1 l2 : List α} {ev : α}
    (h : past ++ evs = l1 ++ ev :: l2) :
    (∃ l2', past = l1 ++ ev :: l2' ∧ l2 = l2' ++ evs) ∨
    (∃ l1', l1 = past ++ l1' ∧ evs = l1' ++ ev :: l2) := by
  rcases List.append_eq_append_iff.mp h with ⟨a', ha1, ha2⟩ | ⟨c', hc1, hc2⟩
  · exact Or.inr ⟨a', ha1, ha2⟩
  · cases c' with
    | nil =>
      right
      refine ⟨[], ?_, ?_⟩
      · rw [hc1]; simp
      · simpa using hc2.symm
    | cons x c'' =>
      left
      simp only [List.cons_append] at hc2
      injection hc2 with h1 h2
      refine ⟨c'', ?_, h2⟩
      rw [hc1, h1]

theorem split_at_last_unique {A l1 l2 : List Event} {E ev : Event}
    (P : Event → Prop) (hA : ∀ x ∈ A, ¬ P x) (hev : P ev)
    (h : A ++ [E] = l1 ++ ev :: l2) : ev = E ∧ l1 = A ∧ l2 = [] := by
  induction A generalizing l1 with
  | nil =>
    cases l1 with
    | nil =>
      simp only [List.nil_append] at h
      injection h with h1 h2
      exact ⟨h1.symm, rfl, h2.symm⟩
    | cons a l1' =>
      simp only [List.nil_append, List.cons_append] at h
      injection h with h1 h2
      exact absurd h2.symm (by simp)
  | cons a A' ih =>
    cases l1 with
    | nil =>
      simp only [List.cons_append, List.nil_append] at h
      injection h with h1 h2
      exact absurd (by rw [h1]; exact hev) (hA a (by simp))
    | cons b l1' =>
      simp only [List.cons_append] at h
      injection h with h1 h2
      obtain ⟨he, hl, hn⟩ := ih (fun x hx => hA x (by simp [hx])) h2
      exact ⟨he, by rw [h1, hl], hn⟩

theorem split_at_head_unique {A l1 l2 : List Event} {E ev : Event}
    (P : Event → Prop) (hA : ∀ x ∈ A, ¬ P x) (hev : P ev)
    (h : E :: A = l1 ++ ev :: l2) : ev = E ∧ l1 = [] ∧ l2 = A := by
  cases l1 with
  | nil =>
    simp only [List.nil_append] at h
    injection h with h1 h2
    exact ⟨h1.symm, rfl, h2.symm⟩
  | cons b l1' =>
    simp only [List.cons_append] at h
    injection h with h1 h2
    exact absurd hev
      (hA ev (by rw [h2]; exact List.mem_append_right _ (List.mem_cons_self _ _)))

theorem code_logged {st : EncState} {past : List Event} (ht : TraceInv st past)
    (h : 256 ≤ st.code) : ∃ p s, Event.insert st.code p s ∈ past := by
  have h256 := FIRST_CODE_eq
  obtain ⟨e, he, hee⟩ := ht.inv.contig st.code (by omega) ht.inv.codeLt
  have hmem := ht.dictLogged e he
  exact ⟨e.prefixCode, e.suffixChar, by rw [← hee]; exact hmem⟩

theorem TraceInv_step {st : EncState} {c : Nat} {past : List Event}
    (ht : TraceInv st past) (hc : c < 256) :
    TraceInv (encodeStep st c).1 (past ++ (encodeStep st c).2) := by
  have hinv' := encodeStep_inv ht.inv hc
  cases hf : FindDictionaryEntry st.dict st.code c with
  | none =>
    rw [encodeStep_none hf]
    simp only [List.append_nil]
    exact ht
  | some node =>
    by_cases hm : node.prefixCode = st.code ∧ node.suffixChar = c
    · rw [encodeStep_match hf hm] at hinv' ⊢
      simp only [List.append_nil]
      exact { inv := hinv', dictLogged := ht.dictLogged,
              pairsInDict := ht.pairsInDict, pairsNodup := ht.pairsNodup,
              emitsGood := ht.emitsGood, insGood := ht.insGood }
    · by_cases hr : st.nextCode < MAX_CODES
      · rw [encodeStep_novel_room hf hm hr] at hinv' ⊢
        dsimp only at hinv' ⊢
        have hnoemit : ∀ x ∈ Event.insert st.nextCode st.code c ::
            (escalate st.code st.currentCodeLen).2,
            ¬ ∃ vv ww, x = Event.emitCode vv ww := by
          intro x hx hex
          obtain ⟨vv, ww, rfl⟩ := hex
          rcases List.mem_cons.mp hx with hx | hx
          · exact absurd hx (by simp)
          · obtain ⟨v2, w2, h2⟩ := escalate_shape hx
            exact absurd h2 (by simp)
        have hnoins : ∀ x ∈ (escalate st.code st.currentCodeLen).2 ++
            [Event.emitCode st.code (escalate st.code st.currentCodeLen).1],
            ¬ ∃ a b d, x = Event.insert a b d := by
          intro x hx hex
          obtain ⟨a, b, d, rfl⟩ := hex
          rcases List.mem_append.mp hx with hx | hx
          · obtain ⟨v2, w2, h2⟩ := escalate_shape hx
            exact absurd h2 (by simp)
          · rw [List.mem_singleton] at hx
            exact absurd hx (by simp)
        have hpairs : insertPairs (past ++ Event.insert st.nextCode st.code c ::
            ((escalate st.code st.currentCodeLen).2 ++
              [Event.emitCode st.code (escalate st.code st.currentCodeLen).1])) =
            insertPairs past ++ [(st.code, c)] := by
          rw [insertPairs_append]
          congr 1
          have h1 : insertPairs ((escalate st.code st.currentCodeLen).2 ++
              [Event.emitCode st.code (escalate st.code st.currentCodeLen).1]) = [] := by
            apply insertPairs_nil
            intro x hx cw pc sc hxx
            exact hnoins x hx ⟨cw, pc, sc, hxx⟩
          have h2 : Event.insert st.nextCode st.code c ::
              ((escalate st.code st.currentCodeLen).2 ++
                [Event.emitCode st.code (escalate st.code st.currentCodeLen).1]) =
              [Event.insert st.nextCode st.code c] ++
                ((escalate st.code st.currentCodeLen).2 ++
                  [Event.emitCode st.code (escalate st.code st.currentCodeLen).1]) :=
            rfl
          rw [h2, insertPairs_append, h1, List.append_nil]
          rfl
        refine { inv := hinv', dictLogged := ?_, pairsInDict := ?_,
                 pairsNodup := ?_, emitsGood := ?_, insGood := ?_ }
        · intro e he
          rcases mem_insertEntry.mp he with rfl | he
          · exact List.mem_append_right _ (by simp)
          · exact List.mem_append_left _ (ht.dictLogged e he)
        · intro pq hpq
          rw [hpairs] at hpq
          rcases List.mem_append.mp hpq with hpq | hpq
          · obtain ⟨e, he, hpe⟩ := ht.pairsInDict pq hpq
            exact ⟨e, mem_insertEntry.mpr (Or.inr he), hpe⟩
          · rw [List.mem_singleton] at hpq
            exact ⟨⟨st.nextCode, st.code, c⟩, mem_insertEntry.mpr (Or.inl rfl),
              by rw [hpq]⟩
        · rw [hpairs]
          refine List.Nodup.append ht.pairsNodup (by simp) ?_
          intro pq hpq hpq2
          rw [List.mem_singleton] at hpq2
          obtain ⟨e, he, hpe⟩ := ht.pairsInDict pq hpq
          have hkey : keyOf e = MakeKey st.code c := by
            rw [hpq2] at hpe
            have h1 : e.prefixCode = st.code := by
              have := congrArg Prod.fst hpe
              simpa using this
            have h2 : e.suffixChar = c := by
              have := congrArg Prod.snd hpe
              simpa using this
            rw [keyOf, h1, h2]
          exact novel_not_mem ht.inv hc hf hm e he hkey
        · intro l1 v w l2 hsplit h256v
          rcases append_split hsplit with ⟨l2', hp, _⟩ | ⟨l1', hl1, hevs⟩
          · exact ht.emitsGood l1 v w l2' hp h256v
          · have hevs' : (Event.insert st.nextCode st.code c ::
                (escalate st.code st.currentCodeLen).2) ++
                [Event.emitCode st.code (escalate st.code st.currentCodeLen).1] =
                l1' ++ Event.emitCode v w :: l2 := by
              simpa using hevs
            obtain ⟨hE, hl1', _⟩ := split_at_last_unique
              (fun x => ∃ vv ww, x = Event.emitCode vv ww) hnoemit ⟨v, w, rfl⟩ hevs'
            have hv : v = st.code := by
              injection hE with h1 h2
            obtain ⟨p, s, hmem⟩ := code_logged ht (by rw [← hv]; exact h256v)
            exact ⟨p, s, by rw [hl1, hv]; exact List.mem_append_left _ hmem⟩
        · intro l1 cw pc sc l2 hsplit
          rcases append_split hsplit with ⟨l2', hp, _⟩ | ⟨l1', hl1, hevs⟩
          · exact ht.insGood l1 cw pc sc l2' hp
          · obtain ⟨hI, hl1', _⟩ := split_at_head_unique
              (fun x => ∃ a b d, x = Event.insert a b d) hnoins ⟨cw, pc, sc, rfl⟩ hevs
            have hcw : cw = st.nextCode ∧ pc = st.code ∧ sc = c := by
              injection hI with h1 h2 h3
              exact ⟨h1, h2, h3⟩
            obtain ⟨h1, h2, h3⟩ := hcw
            constructor
            · rw [h1, h2]
              exact ht.inv.codeLt
            · by_cases hpc : pc < 256
              · exact Or.inl hpc
              · right
                obtain ⟨p, s, hmem⟩ := code_logged ht (by omega)
                exact ⟨p, s, by rw [hl1, h2]; exact List.mem_append_left _ hmem⟩
      · rw [encodeStep_novel_full hf hm hr] at hinv' ⊢
        dsimp only at hinv' ⊢
        have hnoemit : ∀ x ∈ Event.diag :: (escalate st.code st.currentCodeLen).2,
            ¬ ∃ vv ww, x = Event.emitCode vv ww := by
          intro x hx hex
          obtain ⟨vv, ww, rfl⟩ := hex
          rcases List.mem_cons.mp hx with hx | hx
          · exact absurd hx (by simp)
          · obtain ⟨v2, w2, h2⟩ := escalate_shape hx
            exact absurd h2 (by simp)
        have hnoins : ∀ x ∈ Event.diag :: ((escalate st.code st.currentCodeLen).2 ++
            [Event.emitCode st.code (escalate st.code st.currentCodeLen).1]),
            ∀ a b d, x ≠ Event.insert a b d := by
          intro x hx a b d hxx
          rcases List.mem_cons.mp hx with hx | hx
          · rw [hx] at hxx
            exact absurd hxx (by simp)
          · rcases List.mem_append.mp hx with hx | hx
            · obtain ⟨v2, w2, h2⟩ := escalate_shape hx
              rw [hxx] at h2
              exact absurd h2 (by simp)
            · rw [List.mem_singleton] at hx
              rw [hxx] at hx
              exact absurd hx (by simp)
        have hpairs : insertPairs (past ++ Event.diag ::
            ((escalate st.code st.currentCodeLen).2 ++
              [Event.emitCode st.code (escalate st.code st.currentCodeLen).1])) =
            insertPairs past := by
          rw [insertPairs_append, insertPairs_nil hnoins, List.append_nil]
        refine { inv := hinv', dictLogged := ?_, pairsInDict := ?_,
                 pairsNodup := ?_, emitsGood := ?_, insGood := ?_ }
        · intro e he
          exact List.mem_append_left _ (ht.dictLogged e he)
        · intro pq hpq
          rw [hpairs] at hpq
          exact ht.pairsInDict pq hpq
        · rw [hpairs]
          exact ht.pairsNodup
        · intro l1 v w l2 hsplit h256v
          rcases append_split hsplit with ⟨l2', hp, _⟩ | ⟨l1', hl1, hevs⟩
          · exact ht.emitsGood l1 v w l2' hp h256v
          · have hevs' : (Event.diag ::
                (escalate st.code st.currentCodeLen).2) ++
                [Event.emitCode st.code (escalate st.code st.currentCodeLen).1] =
                l1' ++ Event.emitCode v w :: l2 := by
              simpa using hevs
            obtain ⟨hE, hl1', _⟩ := split_at_last_unique
              (fun x => ∃ vv ww, x = Event.emitCode vv ww) hnoemit ⟨v, w, rfl⟩ hevs'
            have hv : v = st.code := by
              injection hE with h1 h2
            obtain ⟨p, s, hmem⟩ := code_logged ht (by rw [← hv]; exact h256v)
            exact ⟨p, s, by rw [hl1, hv]; exact List.mem_append_left _ hmem⟩
        · intro l1 cw pc sc l2 hsplit
          rcases append_split hsplit with ⟨l2', hp, _⟩ | ⟨l1', hl1, hevs⟩
          · exact ht.insGood l1 cw pc sc l2' hp
          · exfalso
            have hmem : Event.insert cw pc sc ∈ Event.diag ::
                ((escalate st.code st.currentCodeLen).2 ++
                  [Event.emitCode st.code (escalate st.code st.currentCodeLen).1]) := by
              rw [hevs]
              exact List.mem_append_right _ (List.mem_cons_self _ _)
            exact hnoins _ hmem cw pc sc rfl

theorem no_insert_escalate_emit (code len v w : Nat) :
    ∀ x ∈ (escalate code len).2 ++ [Event.emitCode v w],
      ∀ a b d, x ≠ Event.insert a b d := by
  intro x hx a b d hxx
  rcases List.mem_append.mp hx with hx | hx
  · obtain ⟨v2, w2, h2⟩ := escalate_shape hx
    rw [hxx] at h2
    exact absurd h2 (by simp)
  · rw [List.mem_singleton] at hx
    rw [hxx] at hx
    exact absurd hx (by simp)

theorem TraceInv_init {c0 c1 : Nat} (h0 : c0 < 256) (h1 : c1 < 256) :
    TraceInv (encInitState c0 c1)
      [Event.insert FIRST_CODE c0 c1, Event.emitCode c0 9] := by
  refine { inv := encInitState_inv h0 h1, dictLogged := ?_, pairsInDict := ?_,
           pairsNodup := ?_, emitsGood := ?_, insGood := ?_ }
  · intro e he
    simp only [encInitState, entriesOf, List.mem_append, List.mem_cons,
      List.not_mem_nil, or_false, false_or] at he
    rw [he]
    simp
  · intro pq hpq
    have hps : insertPairs [Event.insert FIRST_CODE c0 c1, Event.emitCode c0 9] =
        [(c0, c1)] := rfl
    rw [hps, List.mem_singleton] at hpq
    exact ⟨⟨FIRST_CODE, c0, c1⟩, by simp [encInitState, entriesOf], by rw [hpq]⟩
  · have hps : insertPairs [Event.insert FIRST_CODE c0 c1, Event.emitCode c0 9] =
        [(c0, c1)] := rfl
    rw [hps]
    simp
  · intro l1 v w l2 hsplit h256v
    rcases l1 with _ | ⟨a, l1'⟩
    · simp only [List.nil_append] at hsplit
      injection hsplit with hh _
      exact absurd hh (by simp)
    · rcases l1' with _ | ⟨b, t⟩
      · simp only [List.cons_append, List.nil_append] at hsplit
        injection hsplit with hh1 hh2
        injection hh2 with hh3 hh4
        have hv : c0 = v := by injection hh3
        omega
      · simp only [List.cons_append] at hsplit
        injection hsplit with _ hh2
        injection hh2 with _ hh3
        exact absurd hh3.symm (by simp)
  · intro l1 cw pc sc l2 hsplit
    rcases l1 with _ | ⟨a, l1'⟩
    · simp only [List.nil_append] at hsplit
      injection hsplit with hh1 _
      have hinj : FIRST_CODE = cw ∧ c0 = pc ∧ c1 = sc := by
        injection hh1 with a1 a2 a3
        exact ⟨a1, a2, a3⟩
      obtain ⟨ha1, ha2, ha3⟩ := hinj
      have h256 := FIRST_CODE_eq
      exact ⟨by omega, Or.inl (by omega)⟩
    · rcases l1' with _ | ⟨b, t⟩
      · simp only [List.cons_append, List.nil_append] at hsplit
        injection hsplit with _ hh2
        injection hh2 with hh3 _
        exact absurd hh3 (by simp)
      · simp only [List.cons_append] at hsplit
        injection hsplit with _ hh2
        injection hh2 with _ hh3
        exact absurd hh3.symm (by simp)

theorem TraceInv_runLoop : ∀ (cs : List Nat) (st : EncState) (past : List Event),
    TraceInv st past → (∀ b ∈ cs, b < 256) →
    TraceInv (runLoop st cs).1 (past ++ (runLoop st cs).2) := by
  intro cs
  induction cs with
  | nil =>
    intro st past ht _
    rw [runLoop_nil]
    simpa using ht
  | cons c cs ih =>
    intro st past ht hb
    rw [runLoop_cons]
    have h1 := TraceInv_step ht (hb c (by simp))
    have h2 := ih _ _ h1 (fun b hbm => hb b (by simp [hbm]))
    simpa [List.append_assoc] using h2

theorem range'_cons_sub {a N : Nat} (h : a + 1 ≤ N) :
    [a] ++ List.range' (a + 1) (N - (a + 1)) = List.range' a (N - a) := by
  rw [show N - a = (N - (a + 1)) + 1 by omega, List.range'_succ]
  rfl

theorem runLoop_insertCodes : ∀ (cs : List Nat) (st : EncState),
    st.nextCode ≤ (runLoop st cs).1.nextCode ∧
    insertCodes (runLoop st cs).2 =
      List.range' st.nextCode ((runLoop st cs).1.nextCode - st.nextCode) := by
  intro cs
  induction cs with
  | nil =>
    intro st
    rw [runLoop_nil]
    refine ⟨Nat.le_refl _, ?_⟩
    dsimp only
    rw [Nat.sub_self]
    rfl
  | cons c cs ih =>
    intro st
    rw [runLoop_cons]
    obtain ⟨ihle, ihcodes⟩ := ih (encodeStep st c).1
    cases hf : FindDictionaryEntry st.dict st.code c with
    | none =>
      rw [encodeStep_none hf] at ihle ihcodes ⊢
      dsimp only at ihle ihcodes ⊢
      rw [List.nil_append]
      exact ⟨ihle, ihcodes⟩
    | some node =>
      by_cases hm : node.prefixCode = st.code ∧ node.suffixChar = c
      · rw [encodeStep_match hf hm] at ihle ihcodes ⊢
        dsimp only at ihle ihcodes ⊢
        rw [List.nil_append]
        exact ⟨ihle, ihcodes⟩
      · by_cases hr : st.nextCode < MAX_CODES
        · rw [encodeStep_novel_room hf hm hr] at ihle ihcodes ⊢
          dsimp only at ihle ihcodes ⊢
          refine ⟨by omega, ?_⟩
          have hpre : insertCodes (Event.insert st.nextCode st.code c ::
              ((escalate st.code st.currentCodeLen).2 ++
                [Event.emitCode st.code (escalate st.code st.currentCodeLen).1])) =
              [st.nextCode] := by
            have h1 : insertCodes ((escalate st.code st.currentCodeLen).2 ++
                [Event.emitCode st.code (escalate st.code st.currentCodeLen).1]) = [] :=
              insertCodes_nil (no_insert_escalate_emit _ _ _ _)
            rw [show (Event.insert st.nextCode st.code c ::
                ((escalate st.code st.currentCodeLen).2 ++
                  [Event.emitCode st.code (escalate st.code st.currentCodeLen).1])) =
                [Event.insert st.nextCode st.code c] ++
                  ((escalate st.code st.currentCodeLen).2 ++
                    [Event.emitCode st.code (escalate st.code st.currentCodeLen).1])
              from rfl, insertCodes_append, h1, List.append_nil]
            rfl
          rw [insertCodes_append, hpre, ihcodes]
          exact range'_cons_sub ihle
        · rw [encodeStep_novel_full hf hm hr] at ihle ihcodes ⊢
          dsimp only at ihle ihcodes ⊢
          refine ⟨ihle, ?_⟩
          have hpre : insertCodes (Event.diag ::
              ((escalate st.code st.currentCodeLen).2 ++
                [Event.emitCode st.code (escalate st.code st.currentCodeLen).1])) =
              [] := by
            apply insertCodes_nil
            intro x hx a b d hxx
            rcases List.mem_cons.mp hx with hx | hx
            · rw [hxx] at hx
              exact absurd hx (by simp)
            · exact no_insert_escalate_emit _ _ _ _ x hx a b d hxx
          rw [insertCodes_append, hpre, List.nil_append, ihcodes]

/-- C3: within one encode operation the dictionary codes are assigned in
strictly increasing order: the `insert` events of the trace carry exactly the
consecutive code words `FIRST_CODE, FIRST_CODE + 1, ..., nextCode - 1` in
order (no gaps, no reuse), and no `(prefixCode, suffixChar)` pair is ever
inserted twice — each insertion is the first occurrence of a novel pair. -/
theorem C3_codes_consecutive :
    ∀ input stF evs, (∀ b ∈ input, b < 256) →
      LZWEncode input = some (stF, evs) →
      insertCodes evs = List.range' FIRST_CODE (stF.nextCode - FIRST_CODE) ∧
        (insertPairs evs).Nodup := by
  intro input stF evs hb h
  match input with
  | [] => simp [LZWEncode] at h
  | [c0] =>
    simp only [LZWEncode, Option.some.injEq, Prod.mk.injEq] at h
    rw [← h.1, ← h.2]
    dsimp only
    rw [Nat.sub_self]
    exact ⟨rfl, List.nodup_nil⟩
  | c0 :: c1 :: rest =>
    simp only [LZWEncode, Option.some.injEq, Prod.mk.injEq] at h
    obtain ⟨h1, h2⟩ := h
    have hc0 : c0 < 256 := hb c0 (by simp)
    have hc1 : c1 < 256 := hb c1 (by simp)
    have hbrest : ∀ b ∈ rest, b < 256 := fun b hbm => hb b (by simp [hbm])
    have ht := TraceInv_runLoop rest (encInitState c0 c1) _
      (TraceInv_init hc0 hc1) hbrest
    obtain ⟨hle, hcodes⟩ := runLoop_insertCodes rest (encInitState c0 c1)
    rw [← h1, ← h2]
    have hassoc : Event.insert FIRST_CODE c0 c1 :: Event.emitCode c0 9 ::
        ((runLoop (encInitState c0 c1) rest).2 ++
          [Event.emitCode (runLoop (encInitState c0 c1) rest).1.code
            (runLoop (encInitState c0 c1) rest).1.currentCodeLen]) =
        ([Event.insert FIRST_CODE c0 c1, Event.emitCode c0 9] ++
          (runLoop (encInitState c0 c1) rest).2) ++
          [Event.emitCode (runLoop (encInitState c0 c1) rest).1.code
            (runLoop (encInitState c0 c1) rest).1.currentCodeLen] := by
      simp
    rw [hassoc]
    constructor
    · rw [insertCodes_append, insertCodes_append, hcodes]
      have hfin : insertCodes [Event.emitCode
          (runLoop (encInitState c0 c1) rest).1.code
          (runLoop (encInitState c0 c1) rest).1.currentCodeLen] = [] := rfl
      have hseed : insertCodes [Event.insert FIRST_CODE c0 c1,
          Event.emitCode c0 9] = [FIRST_CODE] := rfl
      rw [hfin, hseed, List.append_nil]
      dsimp only [encInitState] at hle ⊢
      exact range'_cons_sub hle
    · rw [insertPairs_append]
      have hfin : insertPairs [Event.emitCode
          (runLoop (encInitState c0 c1) rest).1.code
          (runLoop (encInitState c0 c1) rest).1.currentCodeLen] = [] := rfl
      rw [hfin, List.append_nil]
      exact ht.pairsNodup

/-- Witness for C3 at the input `65 65 65 65`. -/
theorem C3_codes_consecutive_witness :
    insertCodes [Event.insert 256 65 65, Event.emitCode 65 9,
        Event.insert 257 256 65, Event.emitCode 256 9, Event.emitCode 65 9] =
      List.range' FIRST_CODE (258 - FIRST_CODE) ∧
      (insertPairs [Event.insert 256 65 65, Event.emitCode 65 9,
        Event.insert 257 256 65, Event.emitCode 256 9,
        Event.emitCode 65 9]).Nodup :=
  C3_codes_consecutive [65, 65, 65, 65]
    { dict := .node ⟨256, 65, 65⟩ .leaf (.node ⟨257, 256, 65⟩ .leaf .leaf),
      code := 65, currentCodeLen := 9, nextCode := 258 }
    [.insert 256 65 65, .emitCode 65 9, .insert 257 256 65, .emitCode 256 9,
      .emitCode 65 9]
    (by decide) rfl

/-- C4 amended: every dictionary code (value `≥ 256`) carried by a regular
(non-escape) code-word emission is a code that was assigned by an `insert`
event strictly earlier in the trace (the emitted dictionary codes need not be
increasing, gap-free or distinct — see `C4_counterexample`). -/
theorem C4_amended_emitted_codes_assigned :
    ∀ input stF evs l1 v w l2, (∀ b ∈ input, b < 256) →
      LZWEncode input = some (stF, evs) →
      evs = l1 ++ Event.emitCode v w :: l2 → 256 ≤ v →
      ∃ p s, Event.insert v p s ∈ l1 := by
  intro input stF evs l1 v w l2 hb h hsplit h256v
  match input with
  | [] => simp [LZWEncode] at h
  | [c0] =>
    simp only [LZWEncode, Option.some.injEq, Prod.mk.injEq] at h
    rw [← h.2] at hsplit
    rcases l1 with _ | ⟨a, l1'⟩
    · simp only [List.nil_append] at hsplit
      injection hsplit with hh1 hh2
      have hv : c0 = v := by injection hh1
      have hc0 := hb c0 (by simp)
      omega
    · simp only [List.cons_append] at hsplit
      injection hsplit with _ hh2
      exact absurd hh2.symm (by simp)
  | c0 :: c1 :: rest =>
    simp only [LZWEncode, Option.some.injEq, Prod.mk.injEq] at h
    obtain ⟨h1, h2⟩ := h
    have hc0 : c0 < 256 := hb c0 (by simp)
    have hc1 : c1 < 256 := hb c1 (by simp)
    have hbrest : ∀ b ∈ rest, b < 256 := fun b hbm => hb b (by simp [hbm])
    have ht := TraceInv_runLoop rest (encInitState c0 c1) _
      (TraceInv_init hc0 hc1) hbrest
    rw [← h2] at hsplit
    have hsplit' : ([Event.insert FIRST_CODE c0 c1, Event.emitCode c0 9] ++
        (runLoop (encInitState c0 c1) rest).2) ++
        [Event.emitCode (runLoop (encInitState c0 c1) rest).1.code
          (runLoop (encInitState c0 c1) rest).1.currentCodeLen] =
        l1 ++ Event.emitCode v w :: l2 := by
      simpa using hsplit
    rcases append_split hsplit' with ⟨l2', hp, _⟩ | ⟨l1', hl1, hevs⟩
    · exact ht.emitsGood l1 v w l2' hp h256v
    · rcases l1' with _ | ⟨a, l1''⟩
      · simp only [List.nil_append] at hevs
        injection hevs with hh1 _
        have hv : (runLoop (encInitState c0 c1) rest).1.code = v := by
          injection hh1
        obtain ⟨p, s', hmem⟩ := code_logged ht (by omega)
        refine ⟨p, s', ?_⟩
        rw [hl1, List.append_nil, ← hv]
        exact hmem
      · simp only [List.cons_append] at hevs
        injection hevs with _ hh2
        exact absurd hh2.symm (by simp)

/-- Witness for the amended C4 at the input `65 65 65 65`: the emission of
code 256 is preceded by the `insert` event that assigned 256. -/
theorem C4_amended_emitted_codes_assigned_witness :
    ∃ p s, Event.insert 256 p s ∈
      [Event.insert 256 65 65, Event.emitCode 65 9, Event.insert 257 256 65] :=
  C4_amended_emitted_codes_assigned [65, 65, 65, 65]
    { dict := .node ⟨256, 65, 65⟩ .leaf (.node ⟨257, 256, 65⟩ .leaf .leaf),
      code := 65, currentCodeLen := 9, nextCode := 258 }
    [.insert 256 65 65, .emitCode 65 9, .insert 257 256 65, .emitCode 256 9,
      .emitCode 65 9]
    [.insert 256 65 65, .emitCode 65 9, .insert 257 256 65] 256 9
    [.emitCode 65 9]
    (by decide) rfl rfl (by decide)

theorem denote_isSome {es : List Entry}
    (hpc : ∀ e ∈ es, e.prefixCode < e.codeWord)
    (hcl : ∀ e ∈ es, FIRST_CODE ≤ e.prefixCode →
      ∃ e' ∈ es, e'.codeWord = e.prefixCode) :
    ∀ n, (∃ e ∈ es, e.codeWord = n) → ∀ fuel, n < fuel →
      (denoteCode es fuel n).isSome := by
  intro n
  induction n using Nat.strong_induction_on with
  | _ n ih =>
    rintro ⟨e, he, hcw⟩ fuel hfuel
    cases fuel with
    | zero => omega
    | succ f =>
      rw [denoteCode]
      by_cases hlit : n < FIRST_CODE
      · simp [hlit]
      · rw [if_neg hlit]
        have hfind : (es.find? (fun e' => e'.codeWord == n)).isSome :=
          List.find?_isSome.mpr ⟨e, he, by simp [hcw]⟩
        obtain ⟨e', hfind'⟩ := Option.isSome_iff_exists.mp hfind
        rw [hfind']
        have he'mem : e' ∈ es := List.mem_of_find?_eq_some hfind'
        have he'cw : e'.codeWord = n := by
          have := List.find?_some hfind'
          simpa using this
        have hlt : e'.prefixCode < n := by
          have := hpc e' he'mem
          omega
        have hrec : (denoteCode es f e'.prefixCode).isSome := by
          by_cases hp : e'.prefixCode < FIRST_CODE
          · have h256 := FIRST_CODE_eq
            cases f with
            | zero => omega
            | succ f2 =>
              rw [denoteCode]
              simp [hp]
          · obtain ⟨e2, he2, he2cw⟩ := hcl e' he'mem (by omega)
            exact ih e'.prefixCode hlt ⟨e2, he2, he2cw⟩ f (by omega)
        obtain ⟨s, hs⟩ := Option.isSome_iff_exists.mp hrec
        simp [hs]

/-- C10: every dictionary entry created by one encode operation has
`prefixCode < codeWord`, and its prefix code is either a literal byte value
(`< 256`) or the code word of an `insert` event that occurred strictly
earlier in the trace; consequently the prefix chains are acyclic and every
entry of the final dictionary denotes a finite byte string (`denoteCode`
resolves it within `codeWord + 1` steps). -/
theorem C10_entry_prefix_structure :
    (∀ input stF evs l1 cw pc sc l2, (∀ b ∈ input, b < 256) →
      LZWEncode input = some (stF, evs) →
      evs = l1 ++ Event.insert cw pc sc :: l2 →
      pc < cw ∧ (pc < 256 ∨ ∃ p' s', Event.insert pc p' s' ∈ l1)) ∧
    (∀ input stF evs e, (∀ b ∈ input, b < 256) →
      LZWEncode input = some (stF, evs) → e ∈ entriesOf stF.dict →
      (denoteCode (entriesOf stF.dict) (e.codeWord + 1) e.codeWord).isSome) := by
  constructor
  · intro input stF evs l1 cw pc sc l2 hb h hsplit
    match input with
    | [] => simp [LZWEncode] at h
    | [c0] =>
      simp only [LZWEncode, Option.some.injEq, Prod.mk.injEq] at h
      rw [← h.2] at hsplit
      rcases l1 with _ | ⟨a, l1'⟩
      · simp only [List.nil_append] at hsplit
        injection hsplit with hh1 _
        exact absurd hh1 (by simp)
      · simp only [List.cons_append] at hsplit
        injection hsplit with _ hh2
        exact absurd hh2.symm (by simp)
    | c0 :: c1 :: rest =>
      simp only [LZWEncode, Option.some.injEq, Prod.mk.injEq] at h
      obtain ⟨h1, h2⟩ := h
      have hc0 : c0 < 256 := hb c0 (by simp)
      have hc1 : c1 < 256 := hb c1 (by simp)
      have hbrest : ∀ b ∈ rest, b < 256 := fun b hbm => hb b (by simp [hbm])
      have ht := TraceInv_runLoop rest (encInitState c0 c1) _
        (TraceInv_init hc0 hc1) hbrest
      rw [← h2] at hsplit
      have hsplit' : ([Event.insert FIRST_CODE c0 c1, Event.emitCode c0 9] ++
          (runLoop (encInitState c0 c1) rest).2) ++
          [Event.emitCode (runLoop (encInitState c0 c1) rest).1.code
            (runLoop (encInitState c0 c1) rest).1.currentCodeLen] =
          l1 ++ Event.insert cw pc sc :: l2 := by
        simpa using hsplit
      rcases append_split hsplit' with ⟨l2', hp, _⟩ | ⟨l1', hl1, hevs⟩
      · exact ht.insGood l1 cw pc sc l2' hp
      · rcases l1' with _ | ⟨a, l1''⟩
        · simp only [List.nil_append] at hevs
          injection hevs with hh1 _
          exact absurd hh1 (by simp)
        · simp only [List.cons_append] at hevs
          injection hevs with _ hh2
          exact absurd hh2.symm (by simp)
  · intro input stF evs e hb h he
    match input with
    | [] => simp [LZWEncode] at h
    | [c0] =>
      simp only [LZWEncode, Option.some.injEq, Prod.mk.injEq] at h
      rw [← h.1] at he
      simp [entriesOf] at he
    | c0 :: c1 :: rest =>
      simp only [LZWEncode, Option.some.injEq, Prod.mk.injEq] at h
      obtain ⟨h1, h2⟩ := h
      have hc0 : c0 < 256 := hb c0 (by simp)
      have hc1 : c1 < 256 := hb c1 (by simp)
      have hbrest : ∀ b ∈ rest, b < 256 := fun b hbm => hb b (by simp [hbm])
      have hinv := runLoop_inv rest (encInitState c0 c1)
        (encInitState_inv hc0 hc1) hbrest
      rw [← h1] at he ⊢
      have hpc : ∀ e' ∈ entriesOf (runLoop (encInitState c0 c1) rest).1.dict,
          e'.prefixCode < e'.codeWord :=
        fun e' he' => (hinv.entryBound e' he').2.2.1
      have hcl : ∀ e' ∈ entriesOf (runLoop (encInitState c0 c1) rest).1.dict,
          FIRST_CODE ≤ e'.prefixCode →
          ∃ e2 ∈ entriesOf (runLoop (encInitState c0 c1) rest).1.dict,
            e2.codeWord = e'.prefixCode := by
        intro e' he' hge
        obtain ⟨_, hlt, hplt, _⟩ := hinv.entryBound e' he'
        exact hinv.contig e'.prefixCode hge (by omega)
      exact denote_isSome hpc hcl e.codeWord ⟨e, he, rfl⟩ (e.codeWord + 1)
        (Nat.lt_succ_self _)

/-- Witness for C10 at the input `65 65 65 65`: the entry `257 = (256, 65)`
has `256 < 257` with code 256 inserted earlier, and the entry `256` denotes a
byte string. -/
theorem C10_entry_prefix_structure_witness :
    (256 < 257 ∧ (256 < 256 ∨ ∃ p' s', Event.insert 256 p' s' ∈
      [Event.insert 256 65 65, Event.emitCode 65 9])) ∧
    (denoteCode (entriesOf (DictTree.node ⟨256, 65, 65⟩ .leaf
        (.node ⟨257, 256, 65⟩ .leaf .leaf))) (256 + 1) 256).isSome := by
  have h := C10_entry_prefix_structure
  refine ⟨h.1 [65, 65, 65, 65]
    { dict := .node ⟨256, 65, 65⟩ .leaf (.node ⟨257, 256, 65⟩ .leaf .leaf),
      code := 65, currentCodeLen := 9, nextCode := 258 }
    [.insert 256 65 65, .emitCode 65 9, .insert 257 256 65, .emitCode 256 9,
      .emitCode 65 9]
    [.insert 256 65 65, .emitCode 65 9] 257 256 65
    [.emitCode 256 9, .emitCode 65 9]
    (by decide) rfl rfl, ?_⟩
  exact h.2 [65, 65, 65, 65]
    { dict := .node ⟨256, 65, 65⟩ .leaf (.node ⟨257, 256, 65⟩ .leaf .leaf),
      code := 65, currentCodeLen := 9, nextCode := 258 }
    [.insert 256 65 65, .emitCode 65 9, .insert 257 256 65, .emitCode 256 9,
      .emitCode 65 9]
    ⟨256, 65, 65⟩ (by decide) rfl (by decide)
